import Mathlib

/-!
Verification of the lock-free user-mode concurrency library
(lockfree::queue, lockfree::stack, lockfree::shared_mutex).

The C++ sources are shallowly embedded as Lean state machines:

* the queue's two value lists (push-list, pop-list) become two `List`
  fields, with the chain order of `pPrevious` links represented by list
  order (head of the list = top node of the chain);
* node-level behaviour (free-list recycling, slot occupancy, sequence
  numbers on list heads) is embedded as an explicit heap of addressed
  nodes;
* the shared-mutex loops, whose shared counter/flag is changed
  concurrently by other threads, are embedded as fuel-bounded loops over
  an observation trace `obs : Nat → Int` (resp. `Nat → Bool`) giving the
  value each atomic load / compare-exchange observes.

Single-threaded claims are settled against the sequential semantics
(every CAS succeeds against the value it just observed); trace claims
are settled for all observation sequences.
-/

namespace lockfree

/-! ## Value-level model of `lockfree::queue` (part_006)

`queue::push` constructs a copy of the item into a fresh node and pushes
it on the push-list; `queue::pop` pops from the pop-list, refilling it
from the reversed push-list when empty.  At the level of contained
values, the push-list is the list of items most-recent-first and the
pop-list the list of items oldest-first. -/

structure queue (α : Type) where
  pushList : List α
  popList : List α
deriving Repr, DecidableEq

/-- Loop body chain of `queue::reverseList` (part_006:124-139): iterative
in-place pointer reversal; `next` is the already-reversed prefix
(accumulator), `current` the remaining chain. -/
def reverseListAux {α : Type} : List α → List α → List α
  | [], next => next
  | x :: rest, next => reverseListAux rest (x :: next)

/-- The `queue::reverseList` entry point: `next` starts as `nullptr`. -/
def reverseList {α : Type} (l : List α) : List α :=
  reverseListAux l []

/-- The `queue::push` operation (part_006:56-64): acquire a node,
placement-construct the item, push onto the push-list (most recent
first). -/
def queue.push {α : Type} (q : queue α) (x : α) : queue α :=
  { q with pushList := x :: q.pushList }

/-- The `queue::pop` operation (part_006:67-113), sequential semantics.
Returns the popped value (or `none` on empty) together with the queue
state after the call.  When the pop-list is empty the refill path runs:
detach the whole push-list (`m_pushList.move()`), reverse it, return its
head node's item and splice the remainder into the pop-list
(`m_popList.refill`). -/
def queue.pop {α : Type} (q : queue α) : Option α × queue α :=
  match q.popList with
  | x :: rest => (some x, ⟨q.pushList, rest⟩)
  | [] =>
    match q.pushList with
    | [] => (none, q)
    | y :: rest =>
      match reverseList (y :: rest) with
      | [] => (none, q)   -- unreachable: the reversal of a nonempty chain is nonempty
      | x :: refillList => (some x, ⟨[], refillList⟩)

/-- A freshly constructed queue: both lists empty. -/
def queue.init (α : Type) : queue α := ⟨[], []⟩

/-- Run `n` pops, collecting the successfully popped values in order. -/
def queue.popN {α : Type} : Nat → queue α → List α × queue α
  | 0, q => ([], q)
  | n + 1, q =>
    match queue.pop q with
    | (none, q1) => ([], q1)
    | (some x, q1) =>
      let r := queue.popN n q1
      (x :: r.1, r.2)

/-- Abstraction of the queue state to the FIFO it represents, oldest
element first: the pop-list already holds final FIFO order, the
push-list holds newer elements in reverse arrival order. -/
def absQ {α : Type} (q : queue α) : List α :=
  q.popList ++ q.pushList.reverse

/-- Specification-side FIFO pop, written from the spec's words ("pops
return values in exactly push order"): remove the oldest element of the
abstract FIFO, or fail on empty leaving it unchanged. -/
def fifoPop {α : Type} : List α → Option α × List α
  | [] => (none, [])
  | x :: rest => (some x, rest)

theorem reverseListAux_eq {α : Type} (l acc : List α) :
    reverseListAux l acc = l.reverse ++ acc := by
  induction l generalizing acc with
  | nil => simp [reverseListAux]
  | cons x rest ih => simp [reverseListAux, ih]

theorem reverseList_eq {α : Type} (l : List α) :
    reverseList l = l.reverse := by
  simp [reverseList, reverseListAux_eq]

/-- C1: for the queue used by a single thread, pops return values in
exactly push order.  Concretely, pushing 1, 2, 3 and popping three times
yields [1, 2, 3]; in general every push appends its value to the back
of the abstract FIFO and every pop (including the refill path: detach
push-list, iterative reversal, splice into pop-list) removes exactly
the front of the abstract FIFO, so the order is preserved for every
sequence of pushes and pops. -/
theorem C1_queue_fifo_order :
    (queue.popN 3 ((((queue.init Nat).push 1).push 2).push 3)
      = ([1, 2, 3], queue.init Nat))
    ∧ (∀ (α : Type) (q : queue α) (x : α), absQ (q.push x) = absQ q ++ [x])
    ∧ (∀ (α : Type) (q : queue α),
        ((queue.pop q).1, absQ (queue.pop q).2) = fifoPop (absQ q)) := by
  refine ⟨by decide, ?_, ?_⟩
  · intro α q x
    simp [queue.push, absQ, List.append_assoc]
  · intro α q
    rcases q with ⟨pushL, popL⟩
    cases popL with
    | cons x rest => simp [queue.pop, absQ, fifoPop]
    | nil =>
      cases pushL with
      | nil => simp [queue.pop, absQ, fifoPop]
      | cons y rest =>
        have hrev : reverseList (y :: rest) = (y :: rest).reverse :=
          reverseList_eq _
        rcases h : (y :: rest).reverse with _ | ⟨z, t⟩
        · exact absurd h (by simp)
        · simp [queue.pop, absQ, fifoPop, hrev, h]

/-- Helper: the queue's pop fails exactly when both the push-list and
the pop-list are empty, and a failing pop leaves the queue unchanged. -/
theorem queue_pop_none_iff {α : Type} (q : queue α) :
    ((queue.pop q).1 = none ↔ q.pushList = [] ∧ q.popList = [])
    ∧ ((queue.pop q).1 = none → (queue.pop q).2 = q) := by
  rcases q with ⟨pushL, popL⟩
  cases popL with
  | cons x rest => simp [queue.pop]
  | nil =>
    cases pushL with
    | nil => simp [queue.pop]
    | cons y rest =>
      rcases h : (y :: rest).reverse with _ | ⟨z, t⟩
      · exact absurd h (by simp)
      · simp [queue.pop, reverseList_eq, h]

/-! ## Node-level model of `lockfree::stack` (part_009)

Nodes live in a heap indexed by addresses.  Each allocated node has an
element slot: `none` models a vacant slot (raw storage or a destructed
copy), `some v` a placement-constructed copy of `v`.  The two
`node_list`s (free list and occupied list) are chains of nodes linked by
`pPrevious`; a chain is represented by the list of its addresses, head
(top) first, and each list head carries its `seqNum`. -/

abbrev Addr := Nat

/-- Read a node's element slot: `none` = address not allocated,
`some none` = allocated but vacant, `some (some v)` = slot holds `v`. -/
def heapGet {α : Type} (h : List (Addr × Option α)) (a : Addr) : Option (Option α) :=
  (h.find? (fun p => p.1 == a)).map (fun p => p.2)

/-- Write a node's element slot (placement construction / destruction). -/
def heapUpd {α : Type} (h : List (Addr × Option α)) (a : Addr) (v : Option α) :
    List (Addr × Option α) :=
  h.map (fun p => if p.1 = a then (a, v) else p)

theorem heapGet_cons {α : Type} (q : Addr × Option α) (t : List (Addr × Option α)) (b : Addr) :
    heapGet (q :: t) b = if q.1 = b then some q.2 else heapGet t b := by
  by_cases hq : q.1 = b
  · simp [heapGet, List.find?_cons, hq]
  · have hqb : (q.1 == b) = false := by simpa using hq
    simp [heapGet, List.find?_cons, hqb, hq]

theorem heapUpd_cons {α : Type} (p : Addr × Option α) (t : List (Addr × Option α))
    (a : Addr) (v : Option α) :
    heapUpd (p :: t) a v = (if p.1 = a then (a, v) else p) :: heapUpd t a v := by
  simp [heapUpd]

theorem heapKeys_upd {α : Type} (h : List (Addr × Option α)) (a : Addr) (v : Option α) :
    (heapUpd h a v).map Prod.fst = h.map Prod.fst := by
  induction h with
  | nil => rfl
  | cons p rest ih =>
    rw [heapUpd_cons, List.map_cons, List.map_cons, ih]
    by_cases hp : p.1 = a
    · simp [hp]
    · rw [if_neg hp]

theorem heapGet_upd_self {α : Type} (h : List (Addr × Option α)) (a : Addr) (v : Option α)
    (ha : a ∈ h.map Prod.fst) : heapGet (heapUpd h a v) a = some v := by
  induction h with
  | nil => simp at ha
  | cons p rest ih =>
    rw [List.map_cons] at ha
    by_cases hp : p.1 = a
    · rw [heapUpd_cons, if_pos hp, heapGet_cons, if_pos rfl]
    · have ha2 : a ∈ rest.map Prod.fst := by
        rcases List.mem_cons.mp ha with h1 | h2
        · exact absurd h1.symm hp
        · exact h2
      rw [heapUpd_cons, if_neg hp, heapGet_cons, if_neg hp]
      exact ih ha2

theorem heapGet_upd_ne {α : Type} (h : List (Addr × Option α)) (a b : Addr) (v : Option α)
    (hb : b ≠ a) : heapGet (heapUpd h a v) b = heapGet h b := by
  induction h with
  | nil => rfl
  | cons p rest ih =>
    by_cases hp : p.1 = a
    · simp [heapUpd_cons, heapGet_cons, hp, Ne.symm hb, ih]
    · simp only [heapUpd_cons, if_neg hp, heapGet_cons, ih]

theorem heapGet_mem_keys {α : Type} (h : List (Addr × Option α)) (a : Addr) (w : Option α)
    (hg : heapGet h a = some w) : a ∈ h.map Prod.fst := by
  induction h with
  | nil => simp [heapGet] at hg
  | cons p rest ih =>
    rw [heapGet_cons] at hg
    by_cases hp : p.1 = a
    · rw [List.map_cons]
      exact List.mem_cons.mpr (Or.inl hp.symm)
    · rw [if_neg hp] at hg
      rw [List.map_cons]
      exact List.mem_cons.mpr (Or.inr (ih hg))

theorem heapUpd_not_mem {α : Type} (h : List (Addr × Option α)) (a : Addr) (v : Option α)
    (ha : a ∉ h.map Prod.fst) : heapUpd h a v = h := by
  induction h with
  | nil => rfl
  | cons p rest ih =>
    have hp : ¬ p.1 = a := fun e => ha (by
      rw [List.map_cons]
      exact List.mem_cons.mpr (Or.inl e.symm))
    have ha2 : a ∉ rest.map Prod.fst := fun m => ha (by
      rw [List.map_cons]
      exact List.mem_cons.mpr (Or.inr m))
    rw [heapUpd_cons, if_neg hp, ih ha2]

/-- Modulus of the heads' `seqNum` field, which the source declares as
`unsigned int` (32 bits): increments wrap modulo 2^32. -/
def uintMod : Nat := 4294967296

/-- State of a `lockfree::stack` instance: the heap of allocated nodes,
the free `node_list` chain and its head seqNum, the occupied `node_list`
chain and its head seqNum, and the model allocator's next fresh
address. -/
structure StackSt (α : Type) where
  heap : List (Addr × Option α)
  freeChain : List Addr
  freeSeq : Nat
  occChain : List Addr
  occSeq : Nat
  nextAddr : Addr
deriving Repr, DecidableEq

/-- The `free_list::pop` of the stack (part_009:193-204), with the
allocator succeeding (fresh addresses exist at `nextAddr`): pop the free
`node_list`; if it is empty, malloc raw storage for one node,
`node_list::push` it (which bumps the free head's seqNum by one) and pop
it back out. -/
def free_listPop {α : Type} (s : StackSt α) : Addr × StackSt α :=
  match s.freeChain with
  | a :: rest => (a, { s with freeChain := rest })
  | [] =>
      (s.nextAddr,
        { s with heap := (s.nextAddr, none) :: s.heap,
                 freeSeq := (s.freeSeq + 1) % uintMod,
                 nextAddr := s.nextAddr + 1 })

/-- The `stack::push` operation (part_009:61-69): acquire a node from
the free list, placement-construct a copy of the item into its slot,
then `node_list::push` it onto the occupied list — head pointer and
seqNum updated together as one atomic unit, seqNum incremented by one
(as the `unsigned int` it is, so modulo 2^32). -/
def stack.push {α : Type} (x : α) (s : StackSt α) : StackSt α :=
  let r := free_listPop s
  { r.2 with heap := heapUpd r.2.heap r.1 (some x),
             occChain := r.1 :: r.2.occChain,
             occSeq := (r.2.occSeq + 1) % uintMod }

/-- The `stack::pop` operation (part_009:72-89): `node_list::pop` the
occupied list (head moves to `pPrevious`, seqNum unchanged); on a node,
copy the slot's value to the out parameter, destruct the in-place copy
(the slot becomes vacant) and return true.  The source returns without
pushing the popped node onto the free list.  On an empty occupied list
return false with the state unchanged. -/
def stack.pop {α : Type} (s : StackSt α) : Option α × StackSt α :=
  match s.occChain with
  | [] => (none, s)
  | a :: rest =>
      ((heapGet s.heap a).bind id,
        { s with occChain := rest, heap := heapUpd s.heap a none })

/-- The `stack(initial_capacity)` constructor (part_009:50-52 with
free_list constructor 174-181): mallocs `capacity` raw nodes (modelled
at addresses 0, 1, ..) and `node_list::push`es each onto the free list,
so the chain holds them most-recently-pushed first and the head seqNum
was incremented once per node. -/
def stack.init (α : Type) (capacity : Nat) : StackSt α :=
  { heap := (List.range capacity).map (fun i => (i, none)),
    freeChain := (List.range capacity).reverse,
    freeSeq := capacity % uintMod,
    occChain := [],
    occSeq := 0,
    nextAddr := capacity }

/-- Run `n` pops on the stack, collecting popped values in order. -/
def stack.popN {α : Type} : Nat → StackSt α → List α × StackSt α
  | 0, s => ([], s)
  | n + 1, s =>
    match stack.pop s with
    | (none, s1) => ([], s1)
    | (some x, s1) =>
      let r := stack.popN n s1
      (x :: r.1, r.2)

/-- Well-formedness of a stack state, true of every state reachable from
the constructor: every occupied node's slot holds a value, the chains
hold no duplicate addresses, free nodes are allocated, the free and
occupied chains are disjoint, and every allocated address is below the
allocator's fresh mark. -/
def wf {α : Type} (s : StackSt α) : Prop :=
  (∀ a ∈ s.occChain, ((heapGet s.heap a).bind id).isSome = true)
  ∧ s.occChain.Nodup
  ∧ s.freeChain.Nodup
  ∧ (∀ a ∈ s.freeChain, a ∈ s.heap.map Prod.fst)
  ∧ (∀ a ∈ s.occChain, a ∉ s.freeChain)
  ∧ (∀ a ∈ s.heap.map Prod.fst, a < s.nextAddr)

instance {α : Type} [DecidableEq α] (s : StackSt α) : Decidable (wf s) := by
  unfold wf
  infer_instance

/-- Abstraction of a stack state to the list of contained values, top
first. -/
def absS {α : Type} (s : StackSt α) : List α :=
  s.occChain.filterMap (fun a => (heapGet s.heap a).bind id)

theorem filterMap_ext {α β : Type} (l : List α) (f g : α → Option β)
    (h : ∀ a ∈ l, f a = g a) : l.filterMap f = l.filterMap g := by
  induction l with
  | nil => rfl
  | cons x rest ih =>
    have hx := h x (by simp)
    have hr := ih (fun a ha => h a (by simp [ha]))
    simp [List.filterMap_cons, hx, hr]

theorem bind_id_isSome {α : Type} (o : Option (Option α))
    (h : (o.bind id).isSome = true) : ∃ v, o = some (some v) := by
  match o with
  | none => simp at h
  | some none => simp at h
  | some (some v) => exact ⟨v, rfl⟩

theorem stack_push_absS {α : Type} (s : StackSt α) (x : α) (h : wf s) :
    absS (stack.push x s) = x :: absS s ∧ wf (stack.push x s) := by
  obtain ⟨hocc, hnd, hfnd, hfk, hdisj, hlt⟩ := h
  cases hf : s.freeChain with
  | cons a rest =>
    have haK : a ∈ s.heap.map Prod.fst := hfk a (by rw [hf]; exact List.mem_cons_self a rest)
    have haF : a ∈ s.freeChain := by rw [hf]; exact List.mem_cons_self a rest
    have haOcc : a ∉ s.occChain := fun hmem => (hdisj a hmem) haF
    have haRest : a ∉ rest := by
      have hn := hfnd
      rw [hf] at hn
      exact (List.nodup_cons.mp hn).1
    have hpush : stack.push x s =
        { s with heap := heapUpd s.heap a (some x),
                 freeChain := rest,
                 occChain := a :: s.occChain,
                 occSeq := (s.occSeq + 1) % uintMod } := by
      simp [stack.push, free_listPop, hf]
    have hfa : (heapGet (heapUpd s.heap a (some x)) a).bind id = some x := by
      rw [heapGet_upd_self s.heap a (some x) haK]
      rfl
    have hrest : ∀ b ∈ s.occChain,
        (heapGet (heapUpd s.heap a (some x)) b).bind id = (heapGet s.heap b).bind id := by
      intro b hb
      have hba : b ≠ a := fun e => haOcc (e ▸ hb)
      rw [heapGet_upd_ne s.heap a b (some x) hba]
    constructor
    · rw [hpush]
      show (a :: s.occChain).filterMap _ = _
      rw [List.filterMap_cons]
      simp only [hfa]
      rw [filterMap_ext s.occChain _ _ hrest]
      rfl
    · rw [hpush]
      refine ⟨?_, ?_, ?_, ?_, ?_, ?_⟩
      · intro b hb
        rcases List.mem_cons.mp hb with h1 | h2
        · subst h1
          show ((heapGet (heapUpd s.heap b (some x)) b).bind id).isSome = true
          rw [hfa]
          rfl
        · show ((heapGet (heapUpd s.heap a (some x)) b).bind id).isSome = true
          rw [hrest b h2]
          exact hocc b h2
      · exact List.nodup_cons.mpr ⟨haOcc, hnd⟩
      · have hn := hfnd
        rw [hf] at hn
        exact (List.nodup_cons.mp hn).2
      · intro b hb
        show b ∈ (heapUpd s.heap a (some x)).map Prod.fst
        rw [heapKeys_upd]
        exact hfk b (by rw [hf]; exact List.mem_cons_of_mem a hb)
      · intro b hb
        rcases List.mem_cons.mp hb with h1 | h2
        · subst h1
          exact haRest
        · intro hmem
          exact (hdisj b h2) (by rw [hf]; exact List.mem_cons_of_mem a hmem)
      · intro b hb
        rw [heapKeys_upd] at hb
        exact hlt b hb
  | nil =>
    have hnK : s.nextAddr ∉ s.heap.map Prod.fst := fun m => Nat.lt_irrefl _ (hlt _ m)
    have hoccK : ∀ b ∈ s.occChain, b ∈ s.heap.map Prod.fst := by
      intro b hb
      obtain ⟨v, hv⟩ := bind_id_isSome _ (hocc b hb)
      exact heapGet_mem_keys s.heap b (some v) hv
    have hoccLt : ∀ b ∈ s.occChain, b < s.nextAddr := fun b hb => hlt b (hoccK b hb)
    have hpush : stack.push x s =
        { s with heap := (s.nextAddr, some x) :: s.heap,
                 freeSeq := (s.freeSeq + 1) % uintMod,
                 occChain := s.nextAddr :: s.occChain,
                 occSeq := (s.occSeq + 1) % uintMod,
                 nextAddr := s.nextAddr + 1 } := by
      simp [stack.push, free_listPop, hf]
      rw [heapUpd_cons, if_pos rfl, heapUpd_not_mem s.heap _ _ hnK]
    have hfa : (heapGet ((s.nextAddr, some x) :: s.heap) s.nextAddr).bind id = some x := by
      rw [heapGet_cons, if_pos rfl]
      rfl
    have hrest : ∀ b ∈ s.occChain,
        (heapGet ((s.nextAddr, some x) :: s.heap) b).bind id = (heapGet s.heap b).bind id := by
      intro b hb
      rw [heapGet_cons, if_neg (Nat.ne_of_gt (hoccLt b hb))]
    constructor
    · rw [hpush]
      show (s.nextAddr :: s.occChain).filterMap _ = _
      rw [List.filterMap_cons]
      simp only [hfa]
      rw [filterMap_ext s.occChain _ _ hrest]
      rfl
    · rw [hpush]
      refine ⟨?_, ?_, ?_, ?_, ?_, ?_⟩
      · intro b hb
        rcases List.mem_cons.mp hb with h1 | h2
        · subst h1
          show ((heapGet ((s.nextAddr, some x) :: s.heap) s.nextAddr).bind id).isSome = true
          rw [heapGet_cons, if_pos rfl]
          rfl
        · show ((heapGet ((s.nextAddr, some x) :: s.heap) b).bind id).isSome = true
          rw [hrest b h2]
          exact hocc b h2
      · exact List.nodup_cons.mpr ⟨fun hm => Nat.lt_irrefl _ (hoccLt _ hm), hnd⟩
      · exact hfnd
      · intro b hb
        have : b ∈ s.freeChain := hb
        rw [hf] at this
        exact absurd this (List.not_mem_nil b)
      · intro b _ hmem
        have : b ∈ s.freeChain := hmem
        rw [hf] at this
        exact absurd this (List.not_mem_nil b)
      · intro b hb
        rw [List.map_cons] at hb
        rcases List.mem_cons.mp hb with h1 | h2
        · subst h1
          exact Nat.lt_succ_self _
        · exact Nat.lt_succ_of_lt (hlt b h2)

theorem stack_pop_spec {α : Type} (s : StackSt α) (h : wf s) :
    (s.occChain = [] → stack.pop s = (none, s))
    ∧ (∀ a rest, s.occChain = a :: rest →
        ∃ v, heapGet s.heap a = some (some v)
          ∧ stack.pop s
            = (some v, { s with occChain := rest, heap := heapUpd s.heap a none })
          ∧ heapGet (stack.pop s).2.heap a = some none
          ∧ absS s = v :: absS (stack.pop s).2
          ∧ wf (stack.pop s).2) := by
  obtain ⟨hocc, hnd, hfnd, hfk, hdisj, hlt⟩ := h
  constructor
  · intro he
    simp [stack.pop, he]
  · intro a rest he
    have haMem : a ∈ s.occChain := by rw [he]; exact List.mem_cons_self a rest
    obtain ⟨v, hv⟩ := bind_id_isSome _ (hocc a haMem)
    have haK : a ∈ s.heap.map Prod.fst := heapGet_mem_keys s.heap a (some v) hv
    have haRest : a ∉ rest := by
      have hn := hnd
      rw [he] at hn
      exact (List.nodup_cons.mp hn).1
    have hpop : stack.pop s
        = (some v, { s with occChain := rest, heap := heapUpd s.heap a none }) := by
      simp [stack.pop, he, hv]
    have hrest : ∀ b ∈ rest,
        (heapGet (heapUpd s.heap a none) b).bind id = (heapGet s.heap b).bind id := by
      intro b hb
      have hba : b ≠ a := fun e => haRest (e ▸ hb)
      rw [heapGet_upd_ne s.heap a b none hba]
    refine ⟨v, hv, hpop, ?_, ?_, ?_⟩
    · rw [hpop]
      exact heapGet_upd_self s.heap a none haK
    · rw [hpop]
      show absS s = v :: absS _
      rw [absS, he, List.filterMap_cons, hv]
      show _ = v :: (rest.filterMap _)
      rw [filterMap_ext rest _ _ (fun b hb => (hrest b hb).symm)]
      rfl
    · rw [hpop]
      refine ⟨?_, ?_, ?_, ?_, ?_, ?_⟩
      · intro b hb
        show ((heapGet (heapUpd s.heap a none) b).bind id).isSome = true
        rw [hrest b hb]
        exact hocc b (by rw [he]; exact List.mem_cons_of_mem a hb)
      · have hn := hnd
        rw [he] at hn
        exact (List.nodup_cons.mp hn).2
      · exact hfnd
      · intro b hb
        show b ∈ (heapUpd s.heap a none).map Prod.fst
        rw [heapKeys_upd]
        exact hfk b hb
      · intro b hb
        exact hdisj b (by rw [he]; exact List.mem_cons_of_mem a hb)
      · intro b hb
        rw [heapKeys_upd] at hb
        exact hlt b hb

/-- C6: for the stack used by a single thread, pops return values in
exactly reverse push order.  Concretely, pushing 1, 2, 3 on a stack and
popping three times yields [3, 2, 1]; in general every push conses its
value onto the abstract LIFO and every pop removes exactly the top
value, copying the top slot's content to the out parameter (the value
returned is the slot's content) before destructing the in-place copy
(the slot is vacant, `some none`, afterwards). -/
theorem C6_stack_lifo_order :
    ((stack.popN 3 (stack.push 3 (stack.push 2 (stack.push 1 (stack.init Nat 1))))).1
      = [3, 2, 1])
    ∧ (∀ (α : Type) (s : StackSt α) (x : α), wf s →
        absS (stack.push x s) = x :: absS s ∧ wf (stack.push x s))
    ∧ (∀ (α : Type) (s : StackSt α) (a : Addr) (rest : List Addr),
        wf s → s.occChain = a :: rest →
        ∃ v, heapGet s.heap a = some (some v)
          ∧ stack.pop s
            = (some v, { s with occChain := rest, heap := heapUpd s.heap a none })
          ∧ heapGet (stack.pop s).2.heap a = some none
          ∧ absS s = v :: absS (stack.pop s).2
          ∧ wf (stack.pop s).2) :=
  ⟨by decide,
   fun _ s x h => stack_push_absS s x h,
   fun _ s a rest h he => (stack_pop_spec s h).2 a rest he⟩

/-- Witness for C6 at a concrete input: a stack of capacity 1 with 5
pushed; the push and pop commutation hold there with all hypotheses
discharged by evaluation. -/
theorem C6_stack_lifo_order_witness :
    (absS (stack.push 5 (stack.init Nat 1)) = 5 :: absS (stack.init Nat 1)
      ∧ wf (stack.push 5 (stack.init Nat 1)))
    ∧ (∃ v, heapGet (stack.push 5 (stack.init Nat 1)).heap 0 = some (some v)
        ∧ stack.pop (stack.push 5 (stack.init Nat 1))
          = (some v, { stack.push 5 (stack.init Nat 1) with
              occChain := [],
              heap := heapUpd (stack.push 5 (stack.init Nat 1)).heap 0 none })
        ∧ heapGet (stack.pop (stack.push 5 (stack.init Nat 1))).2.heap 0 = some none
        ∧ absS (stack.push 5 (stack.init Nat 1))
          = v :: absS (stack.pop (stack.push 5 (stack.init Nat 1))).2
        ∧ wf (stack.pop (stack.push 5 (stack.init Nat 1))).2) :=
  ⟨C6_stack_lifo_order.2.1 Nat (stack.init Nat 1) 5 (by decide),
   C6_stack_lifo_order.2.2 Nat (stack.push 5 (stack.init Nat 1)) 0 [] (by decide) (by decide)⟩

/-- C2 (code evaluation at the failing input): on a stack of capacity 1,
push 7 then pop.  The pop succeeds and copies 7 out, but the popped node
(address 0, still allocated: it is the heap's only entry) is on neither
the free chain nor the occupied chain afterwards — `stack::pop`
(part_009:72-89) returns without pushing the node onto the free list, so
the node is leaked rather than released for recycling. -/
theorem C2_pop_does_not_release :
    (stack.pop (stack.push 7 (stack.init Nat 1))).1 = some 7
    ∧ ((stack.pop (stack.push 7 (stack.init Nat 1))).2).freeChain = []
    ∧ ((stack.pop (stack.push 7 (stack.init Nat 1))).2).occChain = []
    ∧ ((stack.pop (stack.push 7 (stack.init Nat 1))).2).heap.map Prod.fst = [0] := by
  decide

/-- C8: pop on an empty structure is a normal failure that changes
nothing.  For the queue, `pop` returns false exactly when both the
push-list and the pop-list are empty, and in that case the queue state
is unchanged (so repeated pops keep returning false and later operations
behave as on the same state).  For the stack, pop on an empty occupied
list returns false with the state unchanged, and on a well-formed state
pop fails exactly when the occupied list is empty. -/
theorem C8_pop_empty_is_normal :
    (∀ (α : Type) (q : queue α),
      ((queue.pop q).1 = none ↔ q.pushList = [] ∧ q.popList = [])
      ∧ ((queue.pop q).1 = none → (queue.pop q).2 = q))
    ∧ (∀ (α : Type) (s : StackSt α),
        (s.occChain = [] → stack.pop s = (none, s))
        ∧ (wf s → ((stack.pop s).1 = none ↔ s.occChain = []))) := by
  constructor
  · intro α q
    exact queue_pop_none_iff q
  · intro α s
    constructor
    · intro he
      simp [stack.pop, he]
    · intro h
      constructor
      · intro hp
        cases he : s.occChain with
        | nil => rfl
        | cons a rest =>
          obtain ⟨v, _, hpop, _⟩ := (stack_pop_spec s h).2 a rest he
          rw [hpop] at hp
          simp at hp
      · intro he
        rw [(stack_pop_spec s h).1 he]

/-- Witness for C8 at concrete inputs: the empty queue and the freshly
constructed stack of capacity 1 (whose occupied list is empty). -/
theorem C8_pop_empty_is_normal_witness :
    (((queue.pop (queue.init Nat)).1 = none
        ↔ (queue.init Nat).pushList = [] ∧ (queue.init Nat).popList = [])
      ∧ ((queue.pop (queue.init Nat)).1 = none
          → (queue.pop (queue.init Nat)).2 = queue.init Nat))
    ∧ ((stack.pop (stack.init Nat 1)).1 = none ↔ (stack.init Nat 1).occChain = []) :=
  ⟨C8_pop_empty_is_normal.1 Nat (queue.init Nat),
   (C8_pop_empty_is_normal.2 Nat (stack.init Nat 1)).2 (by decide)⟩

/-! ## Node-level model of `lockfree::queue` (part_006)

Only the parts that the claims need: the state's lists with their head
descriptors, `queue::push` at node level, and `node_pop_list::refill`.
The queue's push-list head (`node_push_list::m_top`, part_006:166-174)
is a bare `std::atomic<node *>` — a pointer with no sequence number —
while the free list (`node_list`) and the pop-list (`node_pop_list`)
pair the pointer with an `unsigned int seqNum` updated atomically with
it. -/

/-- The head descriptor of the seqNum-carrying lists (the `head` struct
of `node_list` / `node_pop_list`, part_006:234-247/307-320 and
part_009:151-164): a pointer and a sequence number, updated as a single
atomic unit. -/
structure head where
  pNode : Option Addr
  seqNum : Nat
deriving Repr, DecidableEq

/-- State of a `lockfree::queue` instance at node level.  `pushChain`
has no sequence number field because `node_push_list::m_top` is a bare
atomic pointer. -/
structure QueueSt (α : Type) where
  heap : List (Addr × Option α)
  freeChain : List Addr
  freeSeq : Nat
  pushChain : List Addr
  popChain : List Addr
  popSeq : Nat
  nextAddr : Addr
deriving Repr, DecidableEq

/-- The queue's `free_list::pop` (part_006:354-365), allocator
succeeding: same structure as the stack's. -/
def queue_free_listPop {α : Type} (s : QueueSt α) : Addr × QueueSt α :=
  match s.freeChain with
  | a :: rest => (a, { s with freeChain := rest })
  | [] =>
      (s.nextAddr,
        { s with heap := (s.nextAddr, none) :: s.heap,
                 freeSeq := (s.freeSeq + 1) % uintMod,
                 nextAddr := s.nextAddr + 1 })

/-- The `queue::push` operation (part_006:56-64) at node level: acquire
a node from the free list, placement-construct the item into its slot,
`node_push_list::push` it — which links the node's `pPrevious` to the
old top and stores the new bare top pointer; no sequence number exists
on this list to update. -/
def queue.pushN {α : Type} (x : α) (s : QueueSt α) : QueueSt α :=
  let r := queue_free_listPop s
  { r.2 with heap := heapUpd r.2.heap r.1 (some x),
             pushChain := r.1 :: r.2.pushChain }

/-- The `queue(initial_capacity)` constructor (part_006:45-47 with
free_list constructor 335-342). -/
def queue.initN (α : Type) (capacity : Nat) : QueueSt α :=
  { heap := (List.range capacity).map (fun i => (i, none)),
    freeChain := (List.range capacity).reverse,
    freeSeq := capacity % uintMod,
    pushChain := [],
    popChain := [],
    popSeq := 0,
    nextAddr := capacity }

/-- The `node_pop_list::refill` operation (part_006:188-208).  `top` is
the head value read by the initial relaxed load, `topAtCas` the head
value the `compare_exchange_strong` finds (equal to `top` unless
another thread changed the pop-list in between — which, from an empty
pop-list, only a concurrent refill can do).  Throws `std::logic_error`
when the pop-list is non-empty at the load, or when the CAS fails;
otherwise installs the given chain with the sequence number incremented
by one. -/
def node_pop_list.refill (pNode : Addr) (top topAtCas : head) : Except String head :=
  if top.pNode.isSome then
    .error "refill() called when list not empty."
  else if topAtCas ≠ top then
    .error "refill() called by more than one thread at a time."
  else
    .ok { pNode := some pNode, seqNum := (top.seqNum + 1) % uintMod }

/-- Outcome of the node pool's acquire (`free_list::pop`) when the
result of its single `malloc` call is made explicit.  `oom` stands for
an out-of-memory condition propagated to the caller; it is listed so
the spec's expected failure behaviour can be stated, and is produced
nowhere. -/
inductive AcquireResult (α : Type)
  | ok (a : Addr) (s : StackSt α)
  | nullDeref
  | oom
deriving Repr, DecidableEq

/-- The `free_list::pop` of part_009:193-204 (identically
part_006:354-365) with the malloc outcome explicit: pop the free
node_list; if empty, the code runs
`node_list::push(static_cast<node *>(malloc(sizeof(node))))` and pops
again.  If malloc returns storage, that node is pushed (seqNum
incremented) and popped back out.  If malloc fails it returns null, and
`node_list::push` immediately writes through the null pointer
(`pNode->pPrevious = top.pNode`, part_009:119) — undefined behavior;
no out-of-memory condition is propagated and nothing is retried. -/
def free_listPopAlloc {α : Type} (s : StackSt α) (mallocResult : Option Addr) :
    AcquireResult α :=
  match s.freeChain with
  | a :: rest => .ok a { s with freeChain := rest }
  | [] =>
    match mallocResult with
    | some a =>
        .ok a { s with heap := (a, none) :: s.heap,
                       freeSeq := (s.freeSeq + 1) % uintMod }
    | none => .nullDeref

/-- C5 (counterexample): on a queue of capacity 1, a successful push
leaves every sequence number of the queue state unchanged — the free
list's head seqNum and the pop-list's head seqNum are untouched, and
the push-list, whose top pointer now holds the pushed node, carries no
sequence number at all (its head is a bare `std::atomic<node *>`).  So
it is false that every successful push strictly increases a sequence
number of the affected list head, for the queue's push-list. -/
theorem C5_push_list_has_no_seq :
    (queue.pushN 5 (queue.initN Nat 1)).freeSeq = (queue.initN Nat 1).freeSeq
    ∧ (queue.pushN 5 (queue.initN Nat 1)).popSeq = (queue.initN Nat 1).popSeq
    ∧ (queue.pushN 5 (queue.initN Nat 1)).pushChain = [0]
    ∧ (queue.initN Nat 1).pushChain = [] := by
  decide

/-- C5 (amended): every list head that carries a sequence number
updates it together with the pointer as one atomic unit, incremented by
one (as the `unsigned int` it is) on every successful push — the
stack's occupied `node_list`, the free `node_list` (whose push happens
on the allocation path of `free_list::pop`), and the queue's pop-list
on refill.  The queue's push-list head is a bare pointer: a successful
push onto it updates no sequence number (with a node available the push
changes neither the free-list nor the pop-list seqNum). -/
theorem C5_seq_increment_amended :
    (∀ (α : Type) (s : StackSt α) (x : α),
        (stack.push x s).occSeq = (s.occSeq + 1) % uintMod
        ∧ (stack.push x s).occChain = (free_listPop s).1 :: s.occChain)
    ∧ (∀ (α : Type) (s : StackSt α),
        s.freeChain = [] → (free_listPop s).2.freeSeq = (s.freeSeq + 1) % uintMod)
    ∧ (∀ (p : Addr) (top topAtCas : head) (r : head),
        node_pop_list.refill p top topAtCas = .ok r →
        r.pNode = some p ∧ r.seqNum = (top.seqNum + 1) % uintMod)
    ∧ (∀ (α : Type) (s : QueueSt α) (x : α), s.freeChain ≠ [] →
        (queue.pushN x s).freeSeq = s.freeSeq
        ∧ (queue.pushN x s).popSeq = s.popSeq
        ∧ (queue.pushN x s).pushChain = (queue_free_listPop s).1 :: s.pushChain) := by
  refine ⟨?_, ?_, ?_, ?_⟩
  · intro α s x
    cases hf : s.freeChain <;>
      simp [stack.push, free_listPop, hf]
  · intro α s hf
    simp [free_listPop, hf]
  · intro p top topAtCas r hr
    rw [node_pop_list.refill] at hr
    by_cases h1 : top.pNode.isSome
    · rw [if_pos h1] at hr
      exact absurd hr (by simp)
    · rw [if_neg h1] at hr
      by_cases h2 : topAtCas ≠ top
      · rw [if_pos h2] at hr
        exact absurd hr (by simp)
      · rw [if_neg h2] at hr
        have := Except.ok.inj hr
        rw [← this]
        exact ⟨rfl, rfl⟩
  · intro α s x hf
    cases hc : s.freeChain with
    | nil => exact absurd hc hf
    | cons a rest => simp [queue.pushN, queue_free_listPop, hc]

/-- Witness for C5's amended theorem at concrete inputs. -/
theorem C5_seq_increment_amended_witness :
    ((free_listPop (stack.init Nat 0)).2.freeSeq
      = ((stack.init Nat 0).freeSeq + 1) % uintMod)
    ∧ (∃ r, node_pop_list.refill 3 ⟨none, 7⟩ ⟨none, 7⟩ = .ok r
        ∧ r.pNode = some 3 ∧ r.seqNum = (7 + 1) % uintMod)
    ∧ ((queue.pushN 5 (queue.initN Nat 1)).freeSeq = (queue.initN Nat 1).freeSeq
        ∧ (queue.pushN 5 (queue.initN Nat 1)).popSeq = (queue.initN Nat 1).popSeq
        ∧ (queue.pushN 5 (queue.initN Nat 1)).pushChain
          = (queue_free_listPop (queue.initN Nat 1)).1 :: (queue.initN Nat 1).pushChain) :=
  ⟨C5_seq_increment_amended.2.1 Nat (stack.init Nat 0) (by decide),
   ⟨⟨some 3, (7 + 1) % uintMod⟩,
     rfl,
     C5_seq_increment_amended.2.2.1 3 ⟨none, 7⟩ ⟨none, 7⟩ ⟨some 3, (7 + 1) % uintMod⟩ rfl⟩,
   C5_seq_increment_amended.2.2.2 Nat (queue.initN Nat 1) 5 (by decide)⟩

/-- C7 (counterexample): acquire on an empty free list with a failing
malloc.  The code's behavior is the null dereference inside
`node_list::push`, not a propagated out-of-memory condition: no `oom`
outcome is ever produced. -/
theorem C7_alloc_failure_not_propagated :
    free_listPopAlloc (StackSt.mk ([] : List (Addr × Option Nat)) [] 0 [] 0 0) none
      = AcquireResult.nullDeref
    ∧ free_listPopAlloc (StackSt.mk ([] : List (Addr × Option Nat)) [] 0 [] 0 0) none
      ≠ AcquireResult.oom := by
  decide

/-- C7 (amended): the node pool's acquire never returns null — whenever
the free list is non-empty, or it is empty and the fallback `malloc`
returns storage, `free_list::pop` yields an actual node (the single
malloc consulted once, not retried).  When the free list is empty and
malloc fails, the null result is pushed and dereferenced (undefined
behavior) instead of the failure being propagated as an out-of-memory
condition. -/
theorem C7_acquire_never_null :
    (∀ (α : Type) (s : StackSt α) (m : Option Addr),
        (s.freeChain ≠ [] ∨ m ≠ none) →
        ∃ a s2, free_listPopAlloc s m = .ok a s2)
    ∧ (∀ (α : Type) (s : StackSt α),
        s.freeChain = [] → free_listPopAlloc s none = .nullDeref) := by
  constructor
  · intro α s m hm
    cases hf : s.freeChain with
    | cons a rest =>
      exact ⟨a, { s with freeChain := rest }, by simp [free_listPopAlloc, hf]⟩
    | nil =>
      cases m with
      | some a =>
        exact ⟨a, { s with heap := (a, none) :: s.heap,
                           freeSeq := (s.freeSeq + 1) % uintMod },
               by simp [free_listPopAlloc, hf]⟩
      | none =>
        rcases hm with h1 | h2
        · exact absurd hf h1
        · exact absurd rfl h2
  · intro α s hf
    simp [free_listPopAlloc, hf]

/-- Witness for C7's amended theorem: a capacity-1 stack state with a
failing allocator still yields node 0 from the free list; an empty free
list with a failing allocator reaches the undefined null dereference. -/
theorem C7_acquire_never_null_witness :
    (∃ a s2, free_listPopAlloc (stack.init Nat 1) none = .ok a s2)
    ∧ free_listPopAlloc (StackSt.mk ([] : List (Addr × Option Nat)) [] 0 [] 0 0) none
      = AcquireResult.nullDeref :=
  ⟨C7_acquire_never_null.1 Nat (stack.init Nat 1) none (Or.inl (by decide)),
   C7_acquire_never_null.2 Nat (StackSt.mk [] [] 0 [] 0 0) rfl⟩

/-- C9: `node_pop_list::refill` throws exactly when the pop-list was
non-empty at its initial load or when its compare_exchange_strong
fails because the head changed in between (from an empty pop-list only
a concurrent refill changes it); on the non-error path it installs the
given chain as the new head with the sequence number incremented by
one. -/
theorem C9_refill_fatal_iff :
    (∀ (p : Addr) (top topAtCas : head),
        (∃ msg, node_pop_list.refill p top topAtCas = .error msg)
          ↔ (top.pNode ≠ none ∨ topAtCas ≠ top))
    ∧ (∀ (p : Addr) (top topAtCas : head) (r : head),
        node_pop_list.refill p top topAtCas = .ok r →
        r = { pNode := some p, seqNum := (top.seqNum + 1) % uintMod }) := by
  constructor
  · intro p top topAtCas
    constructor
    · intro ⟨msg, hmsg⟩
      rw [node_pop_list.refill] at hmsg
      by_cases h1 : top.pNode.isSome
      · exact Or.inl (Option.isSome_iff_ne_none.mp h1)
      · rw [if_neg h1] at hmsg
        by_cases h2 : topAtCas ≠ top
        · exact Or.inr h2
        · rw [if_neg h2] at hmsg
          exact absurd hmsg (by simp)
    · intro h
      rw [node_pop_list.refill]
      by_cases h1 : top.pNode.isSome
      · exact ⟨_, by rw [if_pos h1]⟩
      · rw [if_neg h1]
        by_cases h2 : topAtCas ≠ top
        · exact ⟨_, by rw [if_pos h2]⟩
        · rcases h with h3 | h4
          · exact absurd (Option.isSome_iff_ne_none.mpr h3) h1
          · exact absurd h4 h2
  · intro p top topAtCas r hr
    rw [node_pop_list.refill] at hr
    by_cases h1 : top.pNode.isSome
    · rw [if_pos h1] at hr
      exact absurd hr (by simp)
    · rw [if_neg h1] at hr
      by_cases h2 : topAtCas ≠ top
      · rw [if_pos h2] at hr
        exact absurd hr (by simp)
      · rw [if_neg h2] at hr
        exact (Except.ok.inj hr).symm

/-- Witness for C9 at concrete inputs: a refill of node 3 into an empty
pop-list head with no concurrent change succeeds with seqNum 8; the
error characterization is instantiated at a non-empty pop-list head. -/
theorem C9_refill_fatal_iff_witness :
    ((∃ msg, node_pop_list.refill 1 ⟨some 0, 4⟩ ⟨some 0, 4⟩ = .error msg)
      ↔ ((⟨some 0, 4⟩ : head).pNode ≠ none ∨ (⟨some 0, 4⟩ : head) ≠ (⟨some 0, 4⟩ : head)))
    ∧ ((⟨some 3, 8 % uintMod⟩ : head)
        = { pNode := some 3, seqNum := (7 + 1) % uintMod }) :=
  ⟨C9_refill_fatal_iff.1 1 ⟨some 0, 4⟩ ⟨some 0, 4⟩,
   C9_refill_fatal_iff.2 3 ⟨none, 7⟩ ⟨none, 7⟩ ⟨some 3, 8 % uintMod⟩ rfl⟩

/-! ## Shared mutex, single-counter design (src/mutex/shared_mutex.h)

The counter is shared with other threads, so its loops are embedded
over an observation trace `obs : Nat → Int`: `obs i` is the counter
value that the i-th atomic load / compare-exchange of the loop
observes.  A compare-exchange attempt succeeds exactly when the
observed value equals its expected argument. -/

namespace shared_mutex

inductive WaitOutcome
  | acquired
  | fatal
  | spin
deriving Repr, DecidableEq

/-- One iteration of the wait loop of `lock()` (shared_mutex.h:82-89):
after swapping the counter (previously `current_ctr`) to -1, load the
counter; leave the loop when it equals `-current_ctr - 1`; throw
`std::logic_error` when it is observed below that value; otherwise keep
spinning. -/
def lockWaitStep (current_ctr ctr : Int) : WaitOutcome :=
  if ctr = -current_ctr - 1 then .acquired
  else if ctr < -current_ctr - 1 then .fatal
  else .spin

/-- The wait loop of `lock()` run over an observation trace, with fuel;
`none` means the fuel ran out while still spinning. -/
def lockWait : Nat → Int → (Nat → Int) → Nat → Option WaitOutcome
  | 0, _, _, _ => none
  | fuel + 1, n, obs, i =>
    match lockWaitStep n (obs i) with
    | .spin => lockWait fuel n obs (i + 1)
    | o => some o

/-- The exclusive-claim loop of `lock()` (shared_mutex.h:68-72):
repeatedly CAS the counter from `current_ctr` to -1; on failure the
observed value replaces `current_ctr`, with negative observations
clamped to 0 (another exclusive claim is in progress, retry from 0).
On success, returns the value the counter was swapped from together
with the next observation index. -/
def lockClaim : Nat → Int → (Nat → Int) → Nat → Option (Int × Nat)
  | 0, _, _, _ => none
  | fuel + 1, e, obs, i =>
    if obs i = e then some (e, i + 1)
    else lockClaim fuel (if obs i < 0 then 0 else obs i) obs (i + 1)

/-- The CAS-decrement loop of `unlock_shared()` (shared_mutex.h:121-123):
CAS the counter from the last observed value `e` to `e - 1`; on failure
retry against the newly observed value.  There is no condition on the
value and no error path. -/
def unlock_sharedLoop : Nat → Int → (Nat → Int) → Nat → Option Int
  | 0, _, _, _ => none
  | fuel + 1, e, obs, i =>
    if obs i = e then some (e - 1)
    else unlock_sharedLoop fuel (obs i) obs (i + 1)

/-- Whole `unlock_shared()` (shared_mutex.h:116-124): an initial relaxed
load of the counter, then the CAS-decrement loop. -/
def unlock_shared (fuel : Nat) (obs : Nat → Int) : Option Int :=
  unlock_sharedLoop fuel (obs 0) obs 1

end shared_mutex

/-! ## Shared mutex, counter-plus-flag design (part_001, part_003)

Same embedding conventions; the exclusive flag is observed through
`obs : Nat → Bool`. -/

namespace shared_mutex_cf

/-- The exclusive-claim loop of `lock()` in the counter-plus-flag design
(part_001:46-52, part_003:46-51): repeatedly CAS the flag from
`expected` to true.  In the source the `while` statement ends in a
semicolon, so the braced `expected = false;` below it is NOT the loop
body — after a failed CAS, `expected` keeps the flag value that the CAS
observed.  On success the returned Bool is the flag value the CAS
swapped from (the CAS stores true), paired with the next observation
index. -/
def lockClaim : Nat → Bool → (Nat → Bool) → Nat → Option (Bool × Nat)
  | 0, _, _, _ => none
  | fuel + 1, e, obs, i =>
    if obs i = e then some (e, i + 1)
    else lockClaim fuel (obs i) obs (i + 1)

/-- The CAS-decrement loop of `unlock_shared()` in the counter-plus-flag
design (part_001:112-114): identical structure to the single-counter
design's loop, differing only in memory orderings. -/
def unlock_sharedLoop : Nat → Int → (Nat → Int) → Nat → Option Int
  | 0, _, _, _ => none
  | fuel + 1, e, obs, i =>
    if obs i = e then some (e - 1)
    else unlock_sharedLoop fuel (obs i) obs (i + 1)

/-- Whole `unlock_shared()` of the counter-plus-flag design
(part_001:107-115). -/
def unlock_shared (fuel : Nat) (obs : Nat → Int) : Option Int :=
  unlock_sharedLoop fuel (obs 0) obs 1

end shared_mutex_cf

/-- C3: in the single-counter design, `lock()` swaps the counter to -1
only from a non-negative value n (the claim loop's expected value stays
non-negative, and a successful CAS means the counter held exactly that
value), then the wait loop leaves the spin exactly when the counter is
observed at -n-1 and throws exactly when the counter is observed at a
value lower than -n-1 — never retrying silently past such an
observation. -/
theorem C3_lock_single_counter :
    (∀ (fuel : Nat) (obs : Nat → Int) (e : Int) (i : Nat) (n : Int) (j : Nat),
        0 ≤ e → shared_mutex.lockClaim fuel e obs i = some (n, j) →
        0 ≤ n ∧ obs (j - 1) = n)
    ∧ (∀ n c, shared_mutex.lockWaitStep n c = .fatal ↔ c < -n - 1)
    ∧ (∀ n c, shared_mutex.lockWaitStep n c = .acquired ↔ c = -n - 1)
    ∧ (∀ fuel n obs i, shared_mutex.lockWait fuel n obs i = some .fatal →
        ∃ j, shared_mutex.lockWaitStep n (obs j) = .fatal) := by
  refine ⟨?_, ?_, ?_, ?_⟩
  · intro fuel
    induction fuel with
    | zero => intro obs e i n j _ hc; simp [shared_mutex.lockClaim] at hc
    | succ fuel ih =>
      intro obs e i n j he hc
      rw [shared_mutex.lockClaim] at hc
      by_cases hobs : obs i = e
      · rw [if_pos hobs] at hc
        have hp : (e, i + 1) = (n, j) := Option.some.inj hc
        injection hp with hn hj
        subst hn
        subst hj
        exact ⟨he, by simpa [Nat.add_sub_cancel] using hobs⟩
      · rw [if_neg hobs] at hc
        have he2 : (0:Int) ≤ (if obs i < 0 then 0 else obs i) := by
          by_cases hneg : obs i < 0
          · simp [hneg]
          · simp [hneg]
            exact le_of_not_lt hneg
        exact ih obs _ (i + 1) n j he2 hc
  · intro n c
    constructor
    · intro h
      by_cases h1 : c = -n - 1
      · simp [shared_mutex.lockWaitStep, h1] at h
      · by_cases h2 : c < -n - 1
        · exact h2
        · simp [shared_mutex.lockWaitStep, h1, h2] at h
    · intro h
      have h1 : ¬ (c = -n - 1) := by omega
      simp [shared_mutex.lockWaitStep, h1, h]
  · intro n c
    constructor
    · intro h
      by_cases h1 : c = -n - 1
      · exact h1
      · by_cases h2 : c < -n - 1 <;> simp [shared_mutex.lockWaitStep, h1, h2] at h
    · intro h
      simp [shared_mutex.lockWaitStep, h]
  · intro fuel
    induction fuel with
    | zero => intro n obs i hc; simp [shared_mutex.lockWait] at hc
    | succ fuel ih =>
      intro n obs i hc
      rw [shared_mutex.lockWait] at hc
      cases hstep : shared_mutex.lockWaitStep n (obs i) with
      | spin =>
        rw [hstep] at hc
        exact ih n obs (i + 1) hc
      | acquired =>
        rw [hstep] at hc
        simp at hc
      | fatal => exact ⟨i, hstep⟩

/-- Witness for C3 at concrete inputs: the claim loop run against a
counter observed at 2 succeeds swapping from the non-negative value 2,
and the wait step for n = 2 observing -4 (below -n-1 = -3) is fatal. -/
theorem C3_lock_single_counter_witness :
    ((0:Int) ≤ 2 ∧ (fun _ => (2:Int)) (1 - 1) = 2)
    ∧ (shared_mutex.lockWaitStep 2 (-4) = .fatal ↔ (-4:Int) < -2 - 1) :=
  ⟨C3_lock_single_counter.1 1 (fun _ => 2) 2 0 2 1 (by norm_num) (by decide),
   C3_lock_single_counter.2.1 2 (-4)⟩

/-- C4 (code evaluation at the failing input): in the counter-plus-flag
design, run the exclusive-claim loop while the flag is observed true at
every attempt (another exclusive access holds it throughout).  The loop
completes after two attempts and its successful CAS swapped the flag
from true to true: the first CAS fails and (because the stray semicolon
makes the reset block dead code) leaves `expected` = true, so the second
CAS compares true with true and succeeds.  An exclusive claim is thus
granted while another exclusive access holds the flag, contradicting
both the claim and the source's own comment "Wait until any current
exclusive access has exited". -/
theorem C4_lock_flag_claims_while_held :
    shared_mutex_cf.lockClaim 2 false (fun _ => true) 0 = some (true, 2) := by
  decide

/-- C10: in both shared-mutex designs, `unlock_shared()` decrements the
counter by exactly one unconditionally: whenever a CAS attempt observes
the value it expects — any value, 0 and negatives included — it
succeeds and the counter becomes that value minus one; with no
interference the whole operation maps counter c to c - 1 for every
integer c.  The loops have no value check and no error path, so an
unmatched call from counter 0 yields -1, below the count of live shared
holders. -/
theorem C10_unlock_shared_unconditional :
    (∀ (e : Int) (obs : Nat → Int) (i fuel : Nat), obs i = e →
        shared_mutex.unlock_sharedLoop (fuel + 1) e obs i = some (e - 1))
    ∧ (∀ (c : Int) (fuel : Nat),
        shared_mutex.unlock_shared (fuel + 1) (fun _ => c) = some (c - 1))
    ∧ (∀ (e : Int) (obs : Nat → Int) (i fuel : Nat), obs i = e →
        shared_mutex_cf.unlock_sharedLoop (fuel + 1) e obs i = some (e - 1))
    ∧ (∀ (c : Int) (fuel : Nat),
        shared_mutex_cf.unlock_shared (fuel + 1) (fun _ => c) = some (c - 1)) := by
  refine ⟨?_, ?_, ?_, ?_⟩
  · intro e obs i fuel h
    rw [shared_mutex.unlock_sharedLoop, if_pos h]
  · intro c fuel
    rw [shared_mutex.unlock_shared, shared_mutex.unlock_sharedLoop, if_pos rfl]
  · intro e obs i fuel h
    rw [shared_mutex_cf.unlock_sharedLoop, if_pos h]
  · intro c fuel
    rw [shared_mutex_cf.unlock_shared, shared_mutex_cf.unlock_sharedLoop, if_pos rfl]

/-- Witness for C10 at a concrete input: an unlock_shared on a counter
holding 0 (no shared lock held) succeeds and drives the counter to -1,
in both designs. -/
theorem C10_unlock_shared_unconditional_witness :
    shared_mutex.unlock_sharedLoop 1 0 (fun _ => 0) 0 = some (-1)
    ∧ shared_mutex_cf.unlock_sharedLoop 1 0 (fun _ => 0) 0 = some (-1) :=
  ⟨C10_unlock_shared_unconditional.1 0 (fun _ => 0) 0 0 rfl,
   C10_unlock_shared_unconditional.2.2.1 0 (fun _ => 0) 0 0 rfl⟩

end lockfree
